import Mathlib

/-!
Shallow embedding of `github_metrics.py` (GalDayan/github-stats).

Timestamps are modelled as `Int` seconds since an epoch; `datetime.timedelta(days = d)`
is `86400 * d` seconds.  A pandas `DataFrame` built from a list of record dicts is
modelled by its list of rows; the special case of an *empty* frame (which then has no
columns, so that `drop_duplicates(subset = [...])` raises a `KeyError`) is tracked
where it matters (the refetch write path).
-/

namespace GithubMetrics

/-- A raw commit object as returned by the commits listing endpoint, restricted to the
fields `process_data` / `extend_all_commits_data` read: `commit["sha"]`,
`commit["commit"]["author"]["date"]`, `commit["commit"]["author"]["name"]`. -/
structure RawCommit where
  sha : String
  date : Int
  author : String
deriving DecidableEq

/-- A raw pull-request object as returned by the pulls listing endpoint, restricted to
the fields the scripts read: `number`, `created_at`, `merged_at`, `closed_at`,
`user.login`. -/
structure RawPR where
  number : Nat
  created_at : Int
  merged_at : Option Int
  closed_at : Option Int
  author : String
deriving DecidableEq

/-- A row of `commits_data_all.csv` (the dict built in `process_data` /
`extend_all_commits_data`). -/
structure CommitRow where
  sha : String
  date : Int
  author : String
  repository : String
deriving DecidableEq

/-- A row of `prs_data_all.csv` (the dict built in `process_data` /
`extend_all_prs_data`). -/
structure PRRow where
  pr_number : Nat
  created_at : Int
  merged_at : Option Int
  closed_at : Option Int
  author : String
  repository : String
deriving DecidableEq

/-- Normalisation of a raw commit into a commit row, tagging the owning repository
(the dict append in `process_data` lines 158-166). -/
def normalize_commit (repo : String) (c : RawCommit) : CommitRow :=
  ⟨c.sha, c.date, c.author, repo⟩

/-- Normalisation of a raw PR into a PR row, tagging the owning repository
(the dict append in `process_data` lines 177-184). -/
def normalize_pr (repo : String) (p : RawPR) : PRRow :=
  ⟨p.number, p.created_at, p.merged_at, p.closed_at, p.author, repo⟩

section DatasetStore

variable {α : Type} {κ : Type} [DecidableEq κ]

/-- Helper for `drop_duplicates`: keep the first row carrying each key, threading the
set (list) of keys already seen. -/
def dropDupsBy (key : α → κ) : List κ → List α → List α
  | _, [] => []
  | seen, x :: xs =>
    if key x ∈ seen then dropDupsBy key seen xs
    else x :: dropDupsBy key (key x :: seen) xs

/-- pandas `DataFrame.drop_duplicates(subset=[key])` with the default `keep="first"`:
the first occurrence of each key survives. -/
def drop_duplicates (key : α → κ) (l : List α) : List α :=
  dropDupsBy key [] l

/-- Insertion step of the stable sort modelling `DataFrame.sort_values(by=time)`. -/
def insertByTime (time : α → Int) (x : α) : List α → List α
  | [] => [x]
  | y :: ys => if time x ≤ time y then x :: y :: ys else y :: insertByTime time x ys

/-- pandas `DataFrame.sort_values(by=time)`, modelled as a stable insertion sort
ascending on the time field. -/
def sort_values (time : α → Int) : List α → List α
  | [] => []
  | x :: xs => insertByTime time x (sort_values time xs)

/-- The merge step used at `github_metrics.py` lines 240 and 290 (and, on fresh data
only, lines 329/332): `pd.concat([existing, incoming]).drop_duplicates(subset=[key])
.sort_values(by=time)`. -/
def merge (key : α → κ) (time : α → Int) (existing incoming : List α) : List α :=
  sort_values time (drop_duplicates key (existing ++ incoming))

/-- Rows sorted ascending by the time field. -/
def SortedByTime (time : α → Int) (l : List α) : Prop :=
  l.Pairwise fun a b => time a ≤ time b

end DatasetStore

/-- `merge` instantiated for the commit table: natural key `sha`, time field `date`. -/
def mergeCommits (existing incoming : List CommitRow) : List CommitRow :=
  merge (fun r => r.sha) (fun r => r.date) existing incoming

/-- `merge` instantiated for the PR table: natural key `pr_number`, time field
`created_at`. -/
def mergePrs (existing incoming : List PRRow) : List PRRow :=
  merge (fun r => r.pr_number) (fun r => r.created_at) existing incoming

/-- A response to one page request: either a non-`200` status or a `200` page whose
body is the given list of items. -/
inductive Response (α : Type) where
  | failure
  | page (data : List α)
deriving DecidableEq

/-- Outcome of one fetch call: the Python return value, or the uncaught
`AttributeError` raised by the unconditional `pbar.close()` after the loop when
`pbar` is still `None`, which happens exactly when the very first page request
already returned a non-`200` status (the `status_code != 200` check at lines 55/103
runs before the `page == 1` block that creates the progress bar). -/
inductive FetchResult (α : Type) where
  | ok (value : α)
  | attributeError
deriving DecidableEq

/-- Pages 2 onward of the `get_commits` loop (lines 50-72), where the progress bar
has already been created on page 1: a non-`200` response or an empty page body
breaks the loop and the commits accumulated so far are returned after a successful
`pbar.close()`; an exhausted stream stands for the server answering an empty page. -/
def get_commits_pages : List (Response RawCommit) → List RawCommit
  | [] => []
  | .failure :: _ => []
  | .page [] :: _ => []
  | .page (c :: cs) :: rest => (c :: cs) ++ get_commits_pages rest

/-- `get_commits` (lines 42-75) as a function of the stream of page responses the
server produces for successive page numbers.  A non-`200` response on the very
first page breaks the loop with `pbar = None`, so `pbar.close()` at line 73 raises
an uncaught `AttributeError` instead of returning; once the first page came back
`200` the progress bar exists and every later termination returns the accumulated
commits. -/
def get_commits : List (Response RawCommit) → FetchResult (List RawCommit)
  | [] => .ok []
  | .failure :: _ => .attributeError
  | .page [] :: _ => .ok []
  | .page (c :: cs) :: rest => .ok ((c :: cs) ++ get_commits_pages rest)

/-- The `for pr in data` loop body of `get_prs_between` (lines 118-127) over one page:
skip items with `created_at >= end_date`, terminate the whole fetch at the first item
with `created_at < start_date` (second component `true`), append the rest.  Returns
the items this page contributes and whether the early return was taken. -/
def scanPage (start_date end_date : Int) : List RawPR → List RawPR × Bool
  | [] => ([], false)
  | pr :: rest =>
    if end_date ≤ pr.created_at then scanPage start_date end_date rest
    else if pr.created_at < start_date then ([], true)
    else
      let t := scanPage start_date end_date rest
      (pr :: t.1, t.2)

/-- Pages 2 onward of the `get_prs_between` loop (lines 100-136), where the progress
bar has already been created on page 1: the loop breaks gracefully on a non-`200`
response, on an empty page body, and on the early return inside the page scan,
returning the fetched PRs together with the number of page requests issued from
this point; an exhausted stream stands for the server answering an empty page. -/
def get_prs_pages_run (start_date end_date : Int) :
    List (Response RawPR) → List RawPR × Nat
  | [] => ([], 1)
  | .failure :: _ => ([], 1)
  | .page [] :: _ => ([], 1)
  | .page (p :: ps) :: rest =>
    let s := scanPage start_date end_date (p :: ps)
    if s.2 then (s.1, 1)
    else
      let r := get_prs_pages_run start_date end_date rest
      (s.1 ++ r.1, r.2 + 1)

/-- `get_prs_between` (lines 88-139) as a function of the stream of page responses,
returning the fetched PRs together with the number of page requests issued.  As in
`get_commits`, a non-`200` response on the very first page breaks the loop with
`pbar = None`, so `pbar.close()` at line 137 raises an uncaught `AttributeError`
instead of returning partial results; from page 2 on, failures end the fetch
gracefully. -/
def get_prs_between_run (start_date end_date : Int) :
    List (Response RawPR) → FetchResult (List RawPR × Nat)
  | [] => .ok ([], 1)
  | .failure :: _ => .attributeError
  | .page [] :: _ => .ok ([], 1)
  | .page (p :: ps) :: rest =>
    let s := scanPage start_date end_date (p :: ps)
    if s.2 then .ok (s.1, 1)
    else
      let r := get_prs_pages_run start_date end_date rest
      .ok (s.1 ++ r.1, r.2 + 1)

/-- The value returned by `get_prs_between`: the PR list, or the `AttributeError`
crash on a first-page failure. -/
def get_prs_between (start_date end_date : Int) (responses : List (Response RawPR)) :
    FetchResult (List RawPR) :=
  match get_prs_between_run start_date end_date responses with
  | .ok r => .ok r.1
  | .attributeError => .attributeError

/-- Outcome of one refetch-mode table write block (lines 328-330 / 331-333): either
the table is written with the given rows, or the `if commits_list:` guard is false and
nothing happens, or `drop_duplicates(subset=[...])` raises a `KeyError` because every
per-repository frame was empty, so the concatenated frame has no columns. -/
inductive RunResult (α : Type) where
  | wrote (rows : List α)
  | noWrite
  | keyError
deriving DecidableEq

/-- One refetch-mode write block: `pd.concat(frames, ignore_index=True)
.drop_duplicates(subset=[key]).sort_values(by=time).to_csv(...)`, guarded by the
truthiness of the list of per-repository frames.  `pd.DataFrame([])` has no columns,
and concatenating only such frames yields a column-less frame on which
`drop_duplicates(subset=[key])` raises `KeyError`. -/
def refetch_table {α : Type} {κ : Type} [DecidableEq κ] (key : α → κ) (time : α → Int)
    (frames : List (List α)) : RunResult α :=
  if frames.isEmpty then .noWrite
  else if frames.flatten.isEmpty then .keyError
  else .wrote (sort_values time (drop_duplicates key frames.flatten))

/-- The two persisted tables; `none` models an absent file. -/
structure Store where
  commits_file : Option (List CommitRow)
  prs_file : Option (List PRRow)
deriving DecidableEq

/-- The state before the first run: neither file exists. -/
def emptyStore : Store := ⟨none, none⟩

/-- The refetch branch of `__main__` (lines 320-334) as a state transition on the two
files, given the per-repository batches of normalized rows collected by the
`process_data` loop.  The commits block runs first; a `KeyError` in it aborts the
process before any write, and a `KeyError` in the PRs block aborts after the commits
write. -/
def refetch_step (cb : List (List CommitRow)) (pb : List (List PRRow)) (st : Store) :
    Store :=
  match refetch_table (fun r => r.sha) (fun r => r.date) cb with
  | .keyError => st
  | .noWrite =>
    match refetch_table (fun r => r.pr_number) (fun r => r.created_at) pb with
    | .wrote prows => { st with prs_file := some prows }
    | _ => st
  | .wrote crows =>
    match refetch_table (fun r => r.pr_number) (fun r => r.created_at) pb with
    | .wrote prows => { st with commits_file := some crows, prs_file := some prows }
    | _ => { st with commits_file := some crows }

/-- One network call issued by an extend-mode fetch: the repository and the requested
window `[since, untilDate)`. -/
structure FetchCall where
  repo : String
  since : Int
  untilDate : Int
deriving DecidableEq

/-- Result of one extend-mode dataset function: the store after the run, the returned
value (`none` models the Python `return None`), the listing calls issued, and whether
the dataset file was rewritten. -/
structure ExtendOut (α : Type) where
  store : Store
  result : Option (List α)
  calls : List FetchCall
  wrote : Bool

/-- `existing_commits_df[existing_commits_df["repository"] == repo]`. -/
def commits_for_repo (existing : List CommitRow) (repo : String) : List CommitRow :=
  existing.filter fun r => r.repository = repo

/-- `existing_prs_df[existing_prs_df["repository"] == repo]`. -/
def prs_for_repo (existing : List PRRow) (repo : String) : List PRRow :=
  existing.filter fun r => r.repository = repo

/-- pandas `Series.min` over a list of timestamps (only used on nonempty lists). -/
def listMin : List Int → Int
  | [] => 0
  | x :: xs => xs.foldl min x

/-- The lower bound of an extend-mode window: `earliest -
datetime.timedelta(days=30 * extend_months)` (lines 211 and 266). -/
def extend_since (extend_months : Nat) (earliest : Int) : Int :=
  earliest - 86400 * (30 * extend_months)

/-- The listing call the commits extend loop issues for one repository: none when the
repository has no stored rows (the loop `continue`s), otherwise the window
`[earliest - 30*extend_months days, earliest)`. -/
def commit_call (extend_months : Nat) (existing : List CommitRow) (repo : String) :
    Option FetchCall :=
  let repo_df := commits_for_repo existing repo
  if repo_df.isEmpty then none
  else
    let earliest := listMin (repo_df.map fun r => r.date)
    some ⟨repo, extend_since extend_months earliest, earliest⟩

/-- All listing calls issued by one `extend_all_commits_data` run. -/
def commit_calls (extend_months : Nat) (existing : List CommitRow)
    (repos : List String) : List FetchCall :=
  repos.filterMap (commit_call extend_months existing)

/-- The new rows one repository contributes to `extended_commits_list`: none when the
repository is skipped or its fetch returns no commits (an empty frame is not
appended), otherwise the normalized fetch result. -/
def commit_fetch_rows (fetchC : String → Int → Int → List RawCommit)
    (extend_months : Nat) (existing : List CommitRow) (repo : String) :
    Option (List CommitRow) :=
  let repo_df := commits_for_repo existing repo
  if repo_df.isEmpty then none
  else
    let earliest := listMin (repo_df.map fun r => r.date)
    let rows := (fetchC repo (extend_since extend_months earliest) earliest).map
      (normalize_commit repo)
    if rows.isEmpty then none else some rows

/-- `extended_commits_list` after the repository loop. -/
def commit_extended (fetchC : String → Int → Int → List RawCommit)
    (extend_months : Nat) (existing : List CommitRow) (repos : List String) :
    List (List CommitRow) :=
  repos.filterMap (commit_fetch_rows fetchC extend_months existing)

/-- `extend_all_commits_data` (lines 193-246), with the network abstracted as a
function `fetchC repo since untilDate` giving the commits `get_commits` would return
for that window.  A missing file returns `None` without touching anything; with no
new rows the existing frame is returned without a write; otherwise existing and new
rows are merged and written back. -/
def extend_all_commits_data (fetchC : String → Int → Int → List RawCommit)
    (repos : List String) (extend_months : Nat) (st : Store) : ExtendOut CommitRow :=
  match st.commits_file with
  | none => ⟨st, none, [], false⟩
  | some existing =>
    let calls := commit_calls extend_months existing repos
    let ext := commit_extended fetchC extend_months existing repos
    if ext.isEmpty then ⟨st, some existing, calls, false⟩
    else
      ⟨{ st with commits_file := some (mergeCommits existing ext.flatten) },
        some (mergeCommits existing ext.flatten), calls, true⟩

/-- The listing call the PRs extend loop issues for one repository (window
`[earliest - 30*extend_months days, earliest)` on `created_at`). -/
def pr_call (extend_months : Nat) (existing : List PRRow) (repo : String) :
    Option FetchCall :=
  let repo_df := prs_for_repo existing repo
  if repo_df.isEmpty then none
  else
    let earliest := listMin (repo_df.map fun r => r.created_at)
    some ⟨repo, extend_since extend_months earliest, earliest⟩

/-- All listing calls issued by one `extend_all_prs_data` run. -/
def pr_calls (extend_months : Nat) (existing : List PRRow) (repos : List String) :
    List FetchCall :=
  repos.filterMap (pr_call extend_months existing)

/-- The new rows one repository contributes to `extended_prs_list`. -/
def pr_fetch_rows (fetchP : String → Int → Int → List RawPR) (extend_months : Nat)
    (existing : List PRRow) (repo : String) : Option (List PRRow) :=
  let repo_df := prs_for_repo existing repo
  if repo_df.isEmpty then none
  else
    let earliest := listMin (repo_df.map fun r => r.created_at)
    let rows := (fetchP repo (extend_since extend_months earliest) earliest).map
      (normalize_pr repo)
    if rows.isEmpty then none else some rows

/-- `extended_prs_list` after the repository loop. -/
def pr_extended (fetchP : String → Int → Int → List RawPR) (extend_months : Nat)
    (existing : List PRRow) (repos : List String) : List (List PRRow) :=
  repos.filterMap (pr_fetch_rows fetchP extend_months existing)

/-- `extend_all_prs_data` (lines 248-296), with the network abstracted as a function
`fetchP repo start end_` giving the PRs `get_prs_between` would return for that
window. -/
def extend_all_prs_data (fetchP : String → Int → Int → List RawPR)
    (repos : List String) (extend_months : Nat) (st : Store) : ExtendOut PRRow :=
  match st.prs_file with
  | none => ⟨st, none, [], false⟩
  | some existing =>
    let calls := pr_calls extend_months existing repos
    let ext := pr_extended fetchP extend_months existing repos
    if ext.isEmpty then ⟨st, some existing, calls, false⟩
    else
      ⟨{ st with prs_file := some (mergePrs existing ext.flatten) },
        some (mergePrs existing ext.flatten), calls, true⟩

/-- The extend branch of `__main__` (lines 335-338): run the commits extension, then
the PRs extension on the resulting store. -/
def extend_mode (fetchC : String → Int → Int → List RawCommit)
    (fetchP : String → Int → Int → List RawPR) (repos : List String)
    (extend_months : Nat) (st : Store) : ExtendOut CommitRow × ExtendOut PRRow :=
  let o1 := extend_all_commits_data fetchC repos extend_months st
  let o2 := extend_all_prs_data fetchP repos extend_months o1.store
  (o1, o2)

/-- One top-level invocation of the script: a refetch run (with the per-repository
normalized batches its `process_data` loop produced) or an extend run (with the
network abstracted as fetch functions). -/
inductive SyncOp where
  | refetchOp (cb : List (List CommitRow)) (pb : List (List PRRow))
  | extendOp (fetchC : String → Int → Int → List RawCommit)
      (fetchP : String → Int → Int → List RawPR) (repos : List String)
      (extend_months : Nat)

/-- The store transition of one invocation. -/
def applyOp : SyncOp → Store → Store
  | .refetchOp cb pb, st => refetch_step cb pb st
  | .extendOp fC fP repos m, st => ((extend_mode fC fP repos m st).2).store

/-- The store after a sequence of invocations. -/
def runOps (ops : List SyncOp) (st : Store) : Store :=
  ops.foldl (fun s o => applyOp o s) st

/-- Table well-formedness: no two rows share the natural key, and rows are sorted
ascending by the time field. -/
def goodTable {α : Type} {κ : Type} (key : α → κ) (time : α → Int) (l : List α) :
    Prop :=
  (l.map key).Nodup ∧ SortedByTime time l

/-- Store well-formedness: each present file is a well-formed table. -/
def goodStore (st : Store) : Prop :=
  (∀ l, st.commits_file = some l → goodTable (fun r => r.sha) (fun r => r.date) l) ∧
  (∀ l, st.prs_file = some l →
    goodTable (fun r => r.pr_number) (fun r => r.created_at) l)

section DedupLemmas

variable {α : Type} {κ : Type} [DecidableEq κ] (key : α → κ)

theorem mem_of_mem_dropDupsBy {seen : List κ} {l : List α} {x : α}
    (h : x ∈ dropDupsBy key seen l) : x ∈ l := by
  induction l generalizing seen with
  | nil => simp [dropDupsBy] at h
  | cons y ys ih =>
    by_cases hy : key y ∈ seen
    · simp only [dropDupsBy, if_pos hy] at h
      exact List.mem_cons_of_mem _ (ih h)
    · simp only [dropDupsBy, if_neg hy, List.mem_cons] at h
      rcases h with h | h
      · exact h ▸ List.mem_cons_self _ _
      · exact List.mem_cons_of_mem _ (ih h)

theorem key_mem_dropDupsBy {seen : List κ} {l : List α} {x : α}
    (hx : x ∈ l) (hk : key x ∉ seen) : key x ∈ (dropDupsBy key seen l).map key := by
  induction l generalizing seen with
  | nil => cases hx
  | cons y ys ih =>
    by_cases hy : key y ∈ seen
    · simp only [dropDupsBy, if_pos hy]
      rcases List.mem_cons.mp hx with rfl | hx'
      · exact absurd hy hk
      · exact ih hx' hk
    · simp only [dropDupsBy, if_neg hy, List.map_cons, List.mem_cons]
      rcases List.mem_cons.mp hx with rfl | hx'
      · exact Or.inl rfl
      · by_cases hkx : key x = key y
        · exact Or.inl hkx
        · exact Or.inr (ih hx' (by simp [hkx, hk]))

theorem dropDupsBy_keys_nodup (seen : List κ) (l : List α) :
    ((dropDupsBy key seen l).map key).Nodup ∧
      ∀ x ∈ dropDupsBy key seen l, key x ∉ seen := by
  induction l generalizing seen with
  | nil => simp [dropDupsBy]
  | cons y ys ih =>
    by_cases hy : key y ∈ seen
    · simpa [dropDupsBy, if_pos hy] using ih seen
    · have ihy := ih (key y :: seen)
      simp only [dropDupsBy, if_neg hy, List.map_cons, List.nodup_cons, List.mem_cons,
        forall_eq_or_imp]
      refine ⟨⟨?_, ihy.1⟩, ⟨hy, ?_⟩⟩
      · intro hmem
        rcases List.mem_map.mp hmem with ⟨x, hx, hkx⟩
        exact (ihy.2 x hx) (by simp [hkx])
      · intro x hx
        exact fun hs => (ihy.2 x hx) (List.mem_cons_of_mem _ hs)

theorem dropDupsBy_append_absorb {seen : List κ} {l m : List α}
    (h : ∀ x ∈ m, key x ∈ l.map key ∨ key x ∈ seen) :
    dropDupsBy key seen (l ++ m) = dropDupsBy key seen l := by
  induction l generalizing seen with
  | nil =>
    simp only [List.nil_append, dropDupsBy]
    induction m generalizing seen with
    | nil => simp [dropDupsBy]
    | cons y ys ihm =>
      have hy : key y ∈ seen := by simpa using h y (List.mem_cons_self _ _)
      simp only [dropDupsBy, if_pos hy]
      exact ihm (fun x hx => by simpa using h x (List.mem_cons_of_mem _ hx))
  | cons y ys ih =>
    by_cases hy : key y ∈ seen
    · simp only [List.cons_append, dropDupsBy, if_pos hy]
      refine ih ?_
      intro x hx
      rcases h x hx with hk | hk
      · rw [List.map_cons] at hk
        rcases List.mem_cons.mp hk with hk' | hk'
        · exact Or.inr (hk' ▸ hy)
        · exact Or.inl hk'
      · exact Or.inr hk
    · simp only [List.cons_append, dropDupsBy, if_neg hy]
      refine congrArg _ (ih ?_)
      intro x hx
      rcases h x hx with hk | hk
      · rw [List.map_cons] at hk
        rcases List.mem_cons.mp hk with hk' | hk'
        · exact Or.inr (by simp [hk'])
        · exact Or.inl hk'
      · exact Or.inr (List.mem_cons_of_mem _ hk)

theorem dropDupsBy_eq_self {seen : List κ} {l : List α}
    (hseen : ∀ x ∈ l, key x ∉ seen) (hnd : (l.map key).Nodup) :
    dropDupsBy key seen l = l := by
  induction l generalizing seen with
  | nil => simp [dropDupsBy]
  | cons y ys ih =>
    have hy : key y ∉ seen := hseen y (List.mem_cons_self _ _)
    simp only [dropDupsBy, if_neg hy]
    refine congrArg _ (ih ?_ ?_)
    · intro x hx
      simp only [List.mem_cons, not_or]
      have hkey : key y ∉ ys.map key := (List.nodup_cons.mp hnd).1
      constructor
      · intro hEq
        exact hkey (hEq ▸ List.mem_map_of_mem key hx)
      · exact hseen x (List.mem_cons_of_mem _ hx)
    · exact (List.nodup_cons.mp hnd).2

theorem mem_dropDupsBy_of_first {seen : List κ} {E N : List α} {e : α}
    (hnd : (E.map key).Nodup) (he : e ∈ E) (hk : key e ∉ seen) :
    e ∈ dropDupsBy key seen (E ++ N) := by
  induction E generalizing seen with
  | nil => cases he
  | cons y ys ih =>
    rcases List.mem_cons.mp he with rfl | he'
    · simp only [List.cons_append, dropDupsBy, if_neg hk]
      exact List.mem_cons_self _ _
    · by_cases hy : key y ∈ seen
      · simp only [List.cons_append, dropDupsBy, if_pos hy]
        exact ih (List.nodup_cons.mp hnd).2 he' hk
      · simp only [List.cons_append, dropDupsBy, if_neg hy]
        refine List.mem_cons_of_mem _ (ih (List.nodup_cons.mp hnd).2 he' ?_)
        simp only [List.mem_cons, not_or]
        refine ⟨?_, hk⟩
        intro hEq
        exact (List.nodup_cons.mp hnd).1 (hEq ▸ List.mem_map_of_mem key he')

end DedupLemmas

section SortLemmas

variable {α : Type} (time : α → Int)

theorem insertByTime_perm (x : α) (l : List α) :
    List.Perm (insertByTime time x l) (x :: l) := by
  induction l with
  | nil => rfl
  | cons y ys ih =>
    by_cases h : time x ≤ time y
    · simp [insertByTime, if_pos h]
    · simp only [insertByTime, if_neg h]
      exact (ih.cons y).trans (List.Perm.swap x y ys)

theorem sort_values_perm (l : List α) : List.Perm (sort_values time l) l := by
  induction l with
  | nil => rfl
  | cons y ys ih =>
    exact (insertByTime_perm time y (sort_values time ys)).trans (ih.cons y)

theorem insertByTime_sorted {l : List α} (x : α) (h : SortedByTime time l) :
    SortedByTime time (insertByTime time x l) := by
  induction l with
  | nil =>
    simp only [insertByTime, SortedByTime]
    exact List.pairwise_singleton _ _
  | cons y ys ih =>
    rcases (List.pairwise_cons.mp h) with ⟨hy, hys⟩
    by_cases hxy : time x ≤ time y
    · simp only [insertByTime, if_pos hxy, SortedByTime]
      refine List.pairwise_cons.mpr ⟨?_, h⟩
      intro b hb
      rcases List.mem_cons.mp hb with rfl | hb'
      · exact hxy
      · exact le_trans hxy (hy b hb')
    · simp only [insertByTime, if_neg hxy, SortedByTime]
      refine List.pairwise_cons.mpr ⟨?_, ih hys⟩
      intro b hb
      have hb' := (insertByTime_perm time x ys).mem_iff.mp hb
      rcases List.mem_cons.mp hb' with rfl | hb''
      · exact le_of_not_le hxy
      · exact hy b hb''

theorem sort_values_sorted (l : List α) : SortedByTime time (sort_values time l) := by
  induction l with
  | nil =>
    simp only [sort_values, SortedByTime]
    exact List.Pairwise.nil
  | cons y ys ih => exact insertByTime_sorted time y ih

theorem insertByTime_of_le {l : List α} (x : α)
    (hx : ∀ y ∈ l, time x ≤ time y) : insertByTime time x l = x :: l := by
  cases l with
  | nil => rfl
  | cons y ys => simp [insertByTime, hx y (List.mem_cons_self _ _)]

theorem sort_values_of_sorted {l : List α} (h : SortedByTime time l) :
    sort_values time l = l := by
  induction l with
  | nil => rfl
  | cons y ys ih =>
    rcases (List.pairwise_cons.mp h) with ⟨hy, hys⟩
    simp only [sort_values, ih hys]
    exact insertByTime_of_le time y hy

end SortLemmas

section MergeLemmas

variable {α : Type} {κ : Type} [DecidableEq κ] (key : α → κ) (time : α → Int)

theorem drop_duplicates_keys_nodup (l : List α) :
    ((drop_duplicates key l).map key).Nodup :=
  (dropDupsBy_keys_nodup key [] l).1

theorem mem_map_key_drop_duplicates {l : List α} {x : α} (hx : x ∈ l) :
    key x ∈ (drop_duplicates key l).map key :=
  key_mem_dropDupsBy key hx (List.not_mem_nil _)

theorem drop_duplicates_append_absorb {l m : List α}
    (h : ∀ x ∈ m, key x ∈ l.map key) :
    drop_duplicates key (l ++ m) = drop_duplicates key l :=
  dropDupsBy_append_absorb key (fun x hx => Or.inl (h x hx))

theorem drop_duplicates_eq_self {l : List α} (hnd : (l.map key).Nodup) :
    drop_duplicates key l = l :=
  dropDupsBy_eq_self key (fun _ _ => List.not_mem_nil _) hnd

theorem merge_keys_nodup (E N : List α) :
    ((merge key time E N).map key).Nodup := by
  have hperm := (sort_values_perm time (drop_duplicates key (E ++ N))).map key
  exact hperm.nodup_iff.mpr (drop_duplicates_keys_nodup key (E ++ N))

theorem merge_sorted (E N : List α) : SortedByTime time (merge key time E N) :=
  sort_values_sorted time _

theorem mem_map_key_merge {E N : List α} {x : α} (hx : x ∈ E ++ N) :
    key x ∈ (merge key time E N).map key := by
  have hperm := (sort_values_perm time (drop_duplicates key (E ++ N))).map key
  exact hperm.mem_iff.mpr (mem_map_key_drop_duplicates key hx)

theorem merge_self (D : List α) :
    merge key time D D = sort_values time (drop_duplicates key D) := by
  unfold merge
  rw [drop_duplicates_append_absorb key (fun x hx => List.mem_map_of_mem key hx)]

theorem merge_merge_same (E N : List α) :
    merge key time (merge key time E N) N = merge key time E N := by
  have h1 : drop_duplicates key (merge key time E N ++ N)
      = drop_duplicates key (merge key time E N) := by
    refine drop_duplicates_append_absorb key ?_
    intro x hx
    exact mem_map_key_merge key time (List.mem_append_right E hx)
  have h2 : drop_duplicates key (merge key time E N) = merge key time E N :=
    drop_duplicates_eq_self key (merge_keys_nodup key time E N)
  show sort_values time (drop_duplicates key (merge key time E N ++ N))
      = merge key time E N
  rw [h1, h2, sort_values_of_sorted time (merge_sorted key time E N)]

omit [DecidableEq κ] in
theorem nodup_keys_inj {l : List α} (hnd : (l.map key).Nodup) {a b : α}
    (ha : a ∈ l) (hb : b ∈ l) (hk : key a = key b) : a = b := by
  induction l with
  | nil => cases ha
  | cons y ys ih =>
    rcases List.nodup_cons.mp hnd with ⟨hy, hys⟩
    rcases List.mem_cons.mp ha with rfl | ha' <;> rcases List.mem_cons.mp hb with h | hb'
    · exact h.symm
    · exact absurd (hk ▸ List.mem_map_of_mem key hb') hy
    · exact absurd (hk ▸ List.mem_map_of_mem key ha') (h ▸ hy)
    · exact ih hys ha' hb'

theorem merge_first_wins {E : List α} (N : List α) {e : α}
    (hnd : (E.map key).Nodup) (he : e ∈ E) :
    e ∈ merge key time E N ∧ ∀ x ∈ merge key time E N, key x = key e → x = e := by
  have hmem : e ∈ merge key time E N := by
    have hdd : e ∈ drop_duplicates key (E ++ N) :=
      mem_dropDupsBy_of_first key hnd he (List.not_mem_nil _)
    exact (sort_values_perm time (drop_duplicates key (E ++ N))).mem_iff.mpr hdd
  refine ⟨hmem, ?_⟩
  intro x hx hk
  exact nodup_keys_inj key (merge_keys_nodup key time E N) hx hmem hk

end MergeLemmas

/-- Claim C3: merge is idempotent for both tables.  Merging a dataset with itself
equals sorting its deduplication, and merging the same incoming batch a second time
yields the same table as merging it once. -/
theorem merge_idempotent :
    (∀ D E N : List CommitRow,
      mergeCommits D D
          = sort_values (fun r => r.date) (drop_duplicates (fun r => r.sha) D) ∧
        mergeCommits (mergeCommits E N) N = mergeCommits E N) ∧
    (∀ D E N : List PRRow,
      mergePrs D D
          = sort_values (fun r => r.created_at)
              (drop_duplicates (fun r => r.pr_number) D) ∧
        mergePrs (mergePrs E N) N = mergePrs E N) := by
  constructor
  · intro D E N
    exact ⟨merge_self _ _ D, merge_merge_same _ _ E N⟩
  · intro D E N
    exact ⟨merge_self _ _ D, merge_merge_same _ _ E N⟩

/-- Claim C5: when an incoming row's natural key collides with a stored row's key,
the stored row survives the merge and every row of the merged table carrying that key
is the stored row itself (the incoming duplicate is dropped, never overwriting it) —
for the commit table keyed by `sha` and the PR table keyed by `pr_number`. -/
theorem merge_keeps_stored_row :
    (∀ (E N : List CommitRow) (e : CommitRow),
      (E.map fun r => r.sha).Nodup → e ∈ E →
        e ∈ mergeCommits E N ∧
          ∀ x ∈ mergeCommits E N, x.sha = e.sha → x = e) ∧
    (∀ (E N : List PRRow) (e : PRRow),
      (E.map fun r => r.pr_number).Nodup → e ∈ E →
        e ∈ mergePrs E N ∧
          ∀ x ∈ mergePrs E N, x.pr_number = e.pr_number → x = e) := by
  constructor
  · intro E N e hnd he
    exact merge_first_wins (fun r => r.sha) (fun r => r.date) N hnd he
  · intro E N e hnd he
    exact merge_first_wins (fun r => r.pr_number) (fun r => r.created_at) N hnd he

/-- Witness for C5: the scenario of the spec — the stored commit row for sha `abc123`
survives a fetch that returns the same sha, and is the only `abc123` row. -/
theorem merge_keeps_stored_row_witness :
    ((⟨"abc123", 10, "alice", "X"⟩ : CommitRow)
        ∈ mergeCommits [⟨"abc123", 10, "alice", "X"⟩] [⟨"abc123", 10, "alice2", "X"⟩] ∧
      ∀ x ∈ mergeCommits [⟨"abc123", 10, "alice", "X"⟩] [⟨"abc123", 10, "alice2", "X"⟩],
        x.sha = "abc123" → x = ⟨"abc123", 10, "alice", "X"⟩) ∧
    ((⟨7, 10, none, none, "alice", "X"⟩ : PRRow)
        ∈ mergePrs [⟨7, 10, none, none, "alice", "X"⟩]
            [⟨7, 10, none, none, "bob", "X"⟩] ∧
      ∀ x ∈ mergePrs [⟨7, 10, none, none, "alice", "X"⟩]
          [⟨7, 10, none, none, "bob", "X"⟩],
        x.pr_number = 7 → x = ⟨7, 10, none, none, "alice", "X"⟩) :=
  ⟨merge_keeps_stored_row.1 [⟨"abc123", 10, "alice", "X"⟩]
      [⟨"abc123", 10, "alice2", "X"⟩] ⟨"abc123", 10, "alice", "X"⟩
      (by decide) (by decide),
    merge_keeps_stored_row.2 [⟨7, 10, none, none, "alice", "X"⟩]
      [⟨7, 10, none, none, "bob", "X"⟩] ⟨7, 10, none, none, "alice", "X"⟩
      (by decide) (by decide)⟩

section InvariantLemmas

theorem goodTable_sort_dd {α : Type} {κ : Type} [DecidableEq κ] (key : α → κ)
    (time : α → Int) (l : List α) :
    goodTable key time (sort_values time (drop_duplicates key l)) := by
  constructor
  · have hperm := (sort_values_perm time (drop_duplicates key l)).map key
    exact hperm.nodup_iff.mpr (drop_duplicates_keys_nodup key l)
  · exact sort_values_sorted time _

theorem goodTable_merge {α : Type} {κ : Type} [DecidableEq κ] (key : α → κ)
    (time : α → Int) (E N : List α) : goodTable key time (merge key time E N) :=
  ⟨merge_keys_nodup key time E N, merge_sorted key time E N⟩

theorem refetch_table_wrote {α : Type} {κ : Type} [DecidableEq κ] {key : α → κ}
    {time : α → Int} {frames : List (List α)} {rows : List α}
    (h : refetch_table key time frames = .wrote rows) :
    rows = sort_values time (drop_duplicates key frames.flatten) := by
  unfold refetch_table at h
  split at h
  · cases h
  · split at h
    · cases h
    · cases h
      rfl

theorem refetch_step_good {cb : List (List CommitRow)} {pb : List (List PRRow)}
    {st : Store} (h : goodStore st) : goodStore (refetch_step cb pb st) := by
  unfold refetch_step
  cases hc : refetch_table (fun r => r.sha) (fun r => r.date) cb with
  | keyError => exact h
  | noWrite =>
    cases hp : refetch_table (fun r => r.pr_number) (fun r => r.created_at) pb with
    | wrote prows =>
      refine ⟨h.1, ?_⟩
      intro l hl
      cases hl
      exact refetch_table_wrote hp ▸ goodTable_sort_dd _ _ _
    | noWrite => exact h
    | keyError => exact h
  | wrote crows =>
    cases hp : refetch_table (fun r => r.pr_number) (fun r => r.created_at) pb with
    | wrote prows =>
      constructor
      · intro l hl
        cases hl
        exact refetch_table_wrote hc ▸ goodTable_sort_dd _ _ _
      · intro l hl
        cases hl
        exact refetch_table_wrote hp ▸ goodTable_sort_dd _ _ _
    | noWrite =>
      refine ⟨?_, h.2⟩
      intro l hl
      cases hl
      exact refetch_table_wrote hc ▸ goodTable_sort_dd _ _ _
    | keyError =>
      refine ⟨?_, h.2⟩
      intro l hl
      cases hl
      exact refetch_table_wrote hc ▸ goodTable_sort_dd _ _ _

theorem extendC_good {fetchC : String → Int → Int → List RawCommit}
    {repos : List String} {m : Nat} {st : Store} (h : goodStore st) :
    goodStore (extend_all_commits_data fetchC repos m st).store := by
  rcases st with ⟨cf, pf⟩
  cases cf with
  | none => exact h
  | some existing =>
    show goodStore (extend_all_commits_data fetchC repos m ⟨some existing, pf⟩).store
    unfold extend_all_commits_data
    by_cases he : (commit_extended fetchC m existing repos).isEmpty
    · simp only [he, if_pos]
      exact h
    · simp only [he, if_neg, Bool.false_eq_true, not_false_iff]
      refine ⟨?_, h.2⟩
      intro l hl
      cases hl
      exact goodTable_merge _ _ _ _
    
theorem extendP_good {fetchP : String → Int → Int → List RawPR}
    {repos : List String} {m : Nat} {st : Store} (h : goodStore st) :
    goodStore (extend_all_prs_data fetchP repos m st).store := by
  rcases st with ⟨cf, pf⟩
  cases pf with
  | none => exact h
  | some existing =>
    show goodStore (extend_all_prs_data fetchP repos m ⟨cf, some existing⟩).store
    unfold extend_all_prs_data
    by_cases he : (pr_extended fetchP m existing repos).isEmpty
    · simp only [he, if_pos]
      exact h
    · simp only [he, if_neg, Bool.false_eq_true, not_false_iff]
      refine ⟨h.1, ?_⟩
      intro l hl
      cases hl
      exact goodTable_merge _ _ _ _

theorem applyOp_good (op : SyncOp) {st : Store} (h : goodStore st) :
    goodStore (applyOp op st) := by
  cases op with
  | refetchOp cb pb => exact refetch_step_good h
  | extendOp fC fP repos m => exact extendP_good (extendC_good h)

theorem runOps_good (ops : List SyncOp) {st : Store} (h : goodStore st) :
    goodStore (runOps ops st) := by
  induction ops generalizing st with
  | nil => exact h
  | cons op rest ih => exact ih (applyOp_good op h)

end InvariantLemmas

/-- Claim C4: after any sequence of refetch and extend invocations starting from the
empty state, the persisted commit table has no two rows with the same `sha`, the
persisted PR table has no two rows with the same `pr_number`, and each table is
sorted ascending by its time field. -/
theorem store_invariant (ops : List SyncOp) : goodStore (runOps ops emptyStore) := by
  apply runOps_good
  unfold goodStore
  exact ⟨(fun _ h => nomatch h), (fun _ h => nomatch h)⟩

section ExtendLemmas

theorem extendC_eq (fetchC : String → Int → Int → List RawCommit)
    (repos : List String) (m : Nat) (E : List CommitRow) (pf : Option (List PRRow)) :
    extend_all_commits_data fetchC repos m ⟨some E, pf⟩
      = if (commit_extended fetchC m E repos).isEmpty
        then ⟨⟨some E, pf⟩, some E, commit_calls m E repos, false⟩
        else
          ⟨⟨some (mergeCommits E (commit_extended fetchC m E repos).flatten), pf⟩,
            some (mergeCommits E (commit_extended fetchC m E repos).flatten),
            commit_calls m E repos, true⟩ := by
  unfold extend_all_commits_data
  by_cases he : (commit_extended fetchC m E repos).isEmpty <;> simp [he, mergeCommits]

theorem extendP_eq (fetchP : String → Int → Int → List RawPR)
    (repos : List String) (m : Nat) (P : List PRRow) (cf : Option (List CommitRow)) :
    extend_all_prs_data fetchP repos m ⟨cf, some P⟩
      = if (pr_extended fetchP m P repos).isEmpty
        then ⟨⟨cf, some P⟩, some P, pr_calls m P repos, false⟩
        else
          ⟨⟨cf, some (mergePrs P (pr_extended fetchP m P repos).flatten)⟩,
            some (mergePrs P (pr_extended fetchP m P repos).flatten),
            pr_calls m P repos, true⟩ := by
  unfold extend_all_prs_data
  by_cases he : (pr_extended fetchP m P repos).isEmpty <;> simp [he, mergePrs]

theorem refetch_table_of_flatten_ne {α : Type} {κ : Type} [DecidableEq κ]
    (key : α → κ) (time : α → Int) {frames : List (List α)}
    (h : frames.flatten ≠ []) :
    refetch_table key time frames
      = .wrote (sort_values time (drop_duplicates key frames.flatten)) := by
  have h1 : frames ≠ [] := by
    intro h'
    exact h (by simp [h'])
  have e1 : frames.isEmpty = false := by
    cases frames with
    | nil => exact absurd rfl h1
    | cons a l => rfl
  have e2 : frames.flatten.isEmpty = false := by
    cases hx : frames.flatten with
    | nil => exact absurd hx h
    | cons a l => rfl
  simp [refetch_table, e1, e2]

end ExtendLemmas

/-- Claim C6: in extend mode, for a repository whose earliest stored timestamp in a
dataset is `T`, the listing call issued for that dataset requests exactly the window
from `T` minus `30 * extend_months` days (of 86400 seconds) up to `T`; with
`extend_months = 2` the lower bound is `T` minus 60 days. -/
theorem extend_window_exact (fetchC : String → Int → Int → List RawCommit)
    (fetchP : String → Int → Int → List RawPR) (repos : List String) (m : Nat)
    (st : Store) (E : List CommitRow) (P : List PRRow) (repo : String)
    (hmem : repo ∈ repos)
    (hE : st.commits_file = some E) (hP : st.prs_file = some P)
    (hcne : commits_for_repo E repo ≠ [])
    (hpne : prs_for_repo P repo ≠ []) :
    (⟨repo, listMin ((commits_for_repo E repo).map fun r => r.date) - 86400 * (30 * m),
        listMin ((commits_for_repo E repo).map fun r => r.date)⟩ : FetchCall)
      ∈ (extend_all_commits_data fetchC repos m st).calls ∧
    (⟨repo,
        listMin ((prs_for_repo P repo).map fun r => r.created_at) - 86400 * (30 * m),
        listMin ((prs_for_repo P repo).map fun r => r.created_at)⟩ : FetchCall)
      ∈ (extend_all_prs_data fetchP repos m st).calls ∧
    (∀ T : Int, extend_since 2 T = T - 60 * 86400) := by
  rcases st with ⟨cf, pf⟩
  simp only at hE hP
  subst hE
  subst hP
  have hcfalse : (commits_for_repo E repo).isEmpty = false := by
    cases hx : commits_for_repo E repo with
    | nil => exact absurd hx hcne
    | cons a l => rfl
  have hpfalse : (prs_for_repo P repo).isEmpty = false := by
    cases hx : prs_for_repo P repo with
    | nil => exact absurd hx hpne
    | cons a l => rfl
  refine ⟨?_, ?_, ?_⟩
  · rw [extendC_eq]
    have hcall : commit_call m E repo
        = some ⟨repo,
            listMin ((commits_for_repo E repo).map fun r => r.date) - 86400 * (30 * m),
            listMin ((commits_for_repo E repo).map fun r => r.date)⟩ := by
      simp [commit_call, hcfalse, extend_since]
    by_cases he : (commit_extended fetchC m E repos).isEmpty <;>
      simp only [he, if_pos, if_neg, Bool.false_eq_true, not_false_iff] <;>
      exact List.mem_filterMap.mpr ⟨repo, hmem, hcall⟩
  · rw [extendP_eq]
    have hcall : pr_call m P repo
        = some ⟨repo,
            listMin ((prs_for_repo P repo).map fun r => r.created_at)
              - 86400 * (30 * m),
            listMin ((prs_for_repo P repo).map fun r => r.created_at)⟩ := by
      simp [pr_call, hpfalse, extend_since]
    by_cases he : (pr_extended fetchP m P repos).isEmpty <;>
      simp only [he, if_pos, if_neg, Bool.false_eq_true, not_false_iff] <;>
      exact List.mem_filterMap.mpr ⟨repo, hmem, hcall⟩
  · intro T
    simp only [extend_since]
    ring

/-- Witness for C6: with one stored commit dated 100 and one stored PR created
at 200 for repository X and `extend_months = 2`, the issued windows are
`[100 - 60 days, 100)` and `[200 - 60 days, 200)`. -/
theorem extend_window_exact_witness :
    (⟨"X", 100 - 86400 * (30 * 2), 100⟩ : FetchCall)
      ∈ (extend_all_commits_data (fun _ _ _ => []) ["X"] 2
          ⟨some [⟨"a", 100, "u", "X"⟩], some [⟨1, 200, none, none, "u", "X"⟩]⟩).calls ∧
    (⟨"X", 200 - 86400 * (30 * 2), 200⟩ : FetchCall)
      ∈ (extend_all_prs_data (fun _ _ _ => []) ["X"] 2
          ⟨some [⟨"a", 100, "u", "X"⟩], some [⟨1, 200, none, none, "u", "X"⟩]⟩).calls ∧
    (∀ T : Int, extend_since 2 T = T - 60 * 86400) :=
  extend_window_exact (fun _ _ _ => []) (fun _ _ _ => []) ["X"] 2
    ⟨some [⟨"a", 100, "u", "X"⟩], some [⟨1, 200, none, none, "u", "X"⟩]⟩
    [⟨"a", 100, "u", "X"⟩] [⟨1, 200, none, none, "u", "X"⟩] "X"
    (List.mem_singleton.mpr rfl) rfl rfl (by decide) (by decide)

/-- Claim C7: in extend mode a missing dataset file makes that dataset's extension
return `None` with no network calls and no change to the store, and the two datasets
are checked independently — a missing commits file does not affect the PR
extension. -/
theorem extend_missing_baseline (fetchC : String → Int → Int → List RawCommit)
    (fetchP : String → Int → Int → List RawPR) (repos : List String) (m : Nat)
    (st : Store) :
    (st.commits_file = none →
      extend_all_commits_data fetchC repos m st = ⟨st, none, [], false⟩) ∧
    (st.prs_file = none →
      extend_all_prs_data fetchP repos m st = ⟨st, none, [], false⟩) ∧
    (st.commits_file = none →
      (extend_mode fetchC fetchP repos m st).2
        = extend_all_prs_data fetchP repos m st) := by
  rcases st with ⟨cf, pf⟩
  refine ⟨?_, ?_, ?_⟩
  · intro h
    simp only at h
    subst h
    rfl
  · intro h
    simp only at h
    subst h
    rfl
  · intro h
    simp only at h
    subst h
    rfl

/-- Witness for C7: with the commits file absent and a PR file present, the commits
extension is a reported no-op and the PR extension of the run is exactly what it
would be on the untouched store; symmetrically a missing PR file only stops the PR
extension. -/
theorem extend_missing_baseline_witness :
    (extend_all_commits_data (fun _ _ _ => []) ["X"] 2 ⟨none, some []⟩
      = ⟨⟨none, some []⟩, none, [], false⟩) ∧
    ((extend_mode (fun _ _ _ => []) (fun _ _ _ => []) ["X"] 2 ⟨none, some []⟩).2
      = extend_all_prs_data (fun _ _ _ => []) ["X"] 2 ⟨none, some []⟩) ∧
    (extend_all_prs_data (fun _ _ _ => []) ["X"] 2 ⟨some [], none⟩
      = ⟨⟨some [], none⟩, none, [], false⟩) :=
  ⟨(extend_missing_baseline (fun _ _ _ => []) (fun _ _ _ => []) ["X"] 2
      ⟨none, some []⟩).1 rfl,
    (extend_missing_baseline (fun _ _ _ => []) (fun _ _ _ => []) ["X"] 2
      ⟨none, some []⟩).2.2 rfl,
    (extend_missing_baseline (fun _ _ _ => []) (fun _ _ _ => []) ["X"] 2
      ⟨some [], none⟩).2.1 rfl⟩

/-- Claim C10: `extend_all_commits_data` never touches the PR file and its behaviour
depends only on the commits file (and symmetrically for `extend_all_prs_data`), and
when no repository yields new rows the function returns the loaded existing dataset
with the file not rewritten. -/
theorem extend_frame_effects (fetchC : String → Int → Int → List RawCommit)
    (fetchP : String → Int → Int → List RawPR) (repos : List String) (m : Nat)
    (st st₂ : Store) :
    ((extend_all_commits_data fetchC repos m st).store.prs_file = st.prs_file) ∧
    (st.commits_file = st₂.commits_file →
      (extend_all_commits_data fetchC repos m st).result
          = (extend_all_commits_data fetchC repos m st₂).result ∧
        (extend_all_commits_data fetchC repos m st).calls
          = (extend_all_commits_data fetchC repos m st₂).calls ∧
        (extend_all_commits_data fetchC repos m st).wrote
          = (extend_all_commits_data fetchC repos m st₂).wrote ∧
        (extend_all_commits_data fetchC repos m st).store.commits_file
          = (extend_all_commits_data fetchC repos m st₂).store.commits_file) ∧
    (∀ E, st.commits_file = some E → commit_extended fetchC m E repos = [] →
      extend_all_commits_data fetchC repos m st
        = ⟨st, some E, commit_calls m E repos, false⟩) ∧
    ((extend_all_prs_data fetchP repos m st).store.commits_file = st.commits_file) ∧
    (st.prs_file = st₂.prs_file →
      (extend_all_prs_data fetchP repos m st).result
          = (extend_all_prs_data fetchP repos m st₂).result ∧
        (extend_all_prs_data fetchP repos m st).calls
          = (extend_all_prs_data fetchP repos m st₂).calls ∧
        (extend_all_prs_data fetchP repos m st).wrote
          = (extend_all_prs_data fetchP repos m st₂).wrote ∧
        (extend_all_prs_data fetchP repos m st).store.prs_file
          = (extend_all_prs_data fetchP repos m st₂).store.prs_file) ∧
    (∀ P, st.prs_file = some P → pr_extended fetchP m P repos = [] →
      extend_all_prs_data fetchP repos m st
        = ⟨st, some P, pr_calls m P repos, false⟩) := by
  rcases st with ⟨cf, pf⟩
  rcases st₂ with ⟨cf₂, pf₂⟩
  refine ⟨?_, ?_, ?_, ?_, ?_, ?_⟩
  · cases cf with
    | none => rfl
    | some E =>
      rw [extendC_eq]
      by_cases he : (commit_extended fetchC m E repos).isEmpty <;> simp [he]
  · intro h
    simp only at h
    subst h
    cases cf with
    | none => exact ⟨rfl, rfl, rfl, rfl⟩
    | some E =>
      rw [extendC_eq, extendC_eq]
      by_cases he : (commit_extended fetchC m E repos).isEmpty <;> simp [he]
  · intro E hE hext
    simp only at hE
    subst hE
    rw [extendC_eq]
    simp [hext]
  · cases pf with
    | none => rfl
    | some P =>
      rw [extendP_eq]
      by_cases he : (pr_extended fetchP m P repos).isEmpty <;> simp [he]
  · intro h
    simp only at h
    subst h
    cases pf with
    | none => exact ⟨rfl, rfl, rfl, rfl⟩
    | some P =>
      rw [extendP_eq, extendP_eq]
      by_cases he : (pr_extended fetchP m P repos).isEmpty <;> simp [he]
  · intro P hP hext
    simp only at hP
    subst hP
    rw [extendP_eq]
    simp [hext]

/-- Witness for C10: concrete stores sharing a dataset file but differing on the
other file give identical extension outcomes, and an all-empty fetch leaves the
dataset as loaded without a rewrite. -/
theorem extend_frame_effects_witness :
    ((extend_all_commits_data (fun _ _ _ => []) ["X"] 2
        ⟨some [⟨"a", 5, "u", "X"⟩], some []⟩).store.prs_file = some []) ∧
    ((extend_all_commits_data (fun _ _ _ => []) ["X"] 2
          ⟨some [⟨"a", 5, "u", "X"⟩], some []⟩).result
        = (extend_all_commits_data (fun _ _ _ => []) ["X"] 2
          ⟨some [⟨"a", 5, "u", "X"⟩], none⟩).result) ∧
    (extend_all_commits_data (fun _ _ _ => []) ["X"] 2
        ⟨some [⟨"a", 5, "u", "X"⟩], some []⟩
      = ⟨⟨some [⟨"a", 5, "u", "X"⟩], some []⟩, some [⟨"a", 5, "u", "X"⟩],
          commit_calls 2 [⟨"a", 5, "u", "X"⟩] ["X"], false⟩) ∧
    (extend_all_prs_data (fun _ _ _ => []) ["X"] 2
        ⟨some [⟨"a", 5, "u", "X"⟩], some [⟨1, 7, none, none, "u", "X"⟩]⟩
      = ⟨⟨some [⟨"a", 5, "u", "X"⟩], some [⟨1, 7, none, none, "u", "X"⟩]⟩,
          some [⟨1, 7, none, none, "u", "X"⟩],
          pr_calls 2 [⟨1, 7, none, none, "u", "X"⟩] ["X"], false⟩) :=
  ⟨(extend_frame_effects (fun _ _ _ => []) (fun _ _ _ => []) ["X"] 2
      ⟨some [⟨"a", 5, "u", "X"⟩], some []⟩ ⟨some [⟨"a", 5, "u", "X"⟩], none⟩).1,
    ((extend_frame_effects (fun _ _ _ => []) (fun _ _ _ => []) ["X"] 2
      ⟨some [⟨"a", 5, "u", "X"⟩], some []⟩
      ⟨some [⟨"a", 5, "u", "X"⟩], none⟩).2.1 rfl).1,
    (extend_frame_effects (fun _ _ _ => []) (fun _ _ _ => []) ["X"] 2
      ⟨some [⟨"a", 5, "u", "X"⟩], some []⟩
      ⟨some [⟨"a", 5, "u", "X"⟩], none⟩).2.2.1 [⟨"a", 5, "u", "X"⟩] rfl (by decide),
    (extend_frame_effects (fun _ _ _ => []) (fun _ _ _ => []) ["X"] 2
      ⟨some [⟨"a", 5, "u", "X"⟩], some [⟨1, 7, none, none, "u", "X"⟩]⟩
      ⟨some [⟨"a", 5, "u", "X"⟩], none⟩).2.2.2.2.2 [⟨1, 7, none, none, "u", "X"⟩]
      rfl (by decide)⟩

/-- Claim C2 counterexample: a refetch run on a store already holding a commit row
with sha "old" (and a PR row numbered 1) whose fetch returns only a different row
produces files in which the previously stored rows are gone — the existing dataset
is not merged in. -/
theorem refetch_drops_stored_row :
    refetch_step [[⟨"new", 100, "bob", "X"⟩]] [[⟨2, 100, none, none, "bob", "X"⟩]]
        ⟨some [⟨"old", 0, "alice", "X"⟩], some [⟨1, 0, none, none, "alice", "X"⟩]⟩
      = ⟨some [⟨"new", 100, "bob", "X"⟩], some [⟨2, 100, none, none, "bob", "X"⟩]⟩ ∧
    (⟨"old", 0, "alice", "X"⟩ : CommitRow) ∉ [(⟨"new", 100, "bob", "X"⟩ : CommitRow)] ∧
    (⟨1, 0, none, none, "alice", "X"⟩ : PRRow)
      ∉ [(⟨2, 100, none, none, "bob", "X"⟩ : PRRow)] := by
  refine ⟨rfl, ?_, ?_⟩ <;> decide

/-- Claim C2 amended: in refetch mode the existing dataset is never loaded; once at
least one repository returned a commit and a PR, the run writes the deduplicated,
sorted union of the newly fetched rows alone as the entire content of each file,
overwriting whatever was stored before. -/
theorem refetch_overwrites (cb : List (List CommitRow)) (pb : List (List PRRow))
    (st : Store) (hcf : cb.flatten ≠ []) (hpf : pb.flatten ≠ []) :
    refetch_step cb pb st
      = ⟨some (sort_values (fun r => r.date)
            (drop_duplicates (fun r => r.sha) cb.flatten)),
          some (sort_values (fun r => r.created_at)
            (drop_duplicates (fun r => r.pr_number) pb.flatten))⟩ := by
  unfold refetch_step
  rw [refetch_table_of_flatten_ne _ _ hcf, refetch_table_of_flatten_ne _ _ hpf]

/-- Witness for C2 amended: the concrete run of the counterexample writes exactly the
newly fetched rows. -/
theorem refetch_overwrites_witness :
    refetch_step [[⟨"new", 100, "bob", "X"⟩]] [[⟨2, 100, none, none, "bob", "X"⟩]]
        ⟨some [⟨"old", 0, "alice", "X"⟩], some [⟨1, 0, none, none, "alice", "X"⟩]⟩
      = ⟨some (sort_values (fun r => r.date) (drop_duplicates (fun r => r.sha)
            [[(⟨"new", 100, "bob", "X"⟩ : CommitRow)]].flatten)),
          some (sort_values (fun r => r.created_at)
            (drop_duplicates (fun r => r.pr_number)
              [[(⟨2, 100, none, none, "bob", "X"⟩ : PRRow)]].flatten))⟩ :=
  refetch_overwrites [[⟨"new", 100, "bob", "X"⟩]]
    [[⟨2, 100, none, none, "bob", "X"⟩]]
    ⟨some [⟨"old", 0, "alice", "X"⟩], some [⟨1, 0, none, none, "alice", "X"⟩]⟩
    (by decide) (by decide)

/-- Claim C9 (code bug): a refetch run in which every repository returns zero commits
and zero PRs does not write header-only tables — every per-repository frame is a
column-less `pd.DataFrame([])`, so `drop_duplicates(subset=["sha"])` raises
`KeyError` on the concatenation and the run aborts with no file written. -/
theorem refetch_empty_fetch_key_error :
    refetch_table (fun r : CommitRow => r.sha) (fun r => r.date) [[]]
        = RunResult.keyError ∧
    refetch_table (fun r : PRRow => r.pr_number) (fun r => r.created_at) [[]]
        = RunResult.keyError ∧
    refetch_step [[]] [[]] emptyStore = emptyStore :=
  ⟨rfl, rfl, rfl⟩

section PaginationLemmas

theorem scanPage_no_old {s e : Int} {p : List RawPR}
    (h : ∀ x ∈ p, s ≤ x.created_at) :
    scanPage s e p = (p.filter fun x => decide (x.created_at < e), false) := by
  induction p with
  | nil => rfl
  | cons pr rest ih =>
    have hpr : s ≤ pr.created_at := h pr (List.mem_cons_self _ _)
    have hrest := ih fun x hx => h x (List.mem_cons_of_mem _ hx)
    by_cases he : e ≤ pr.created_at
    · have hfe : decide (pr.created_at < e) = false := by
        simp [not_lt.mpr he]
      simp [scanPage, if_pos he, List.filter_cons, hfe, hrest]
    · have hns : ¬ pr.created_at < s := not_lt.mpr hpr
      have hte : decide (pr.created_at < e) = true := by
        simp [lt_of_not_le he]
      simp [scanPage, if_neg he, if_neg hns, List.filter_cons, hte, hrest]

theorem scanPage_fst {s e : Int} (hse : s ≤ e) (p : List RawPR) :
    (scanPage s e p).1
      = (p.takeWhile fun x => decide (s ≤ x.created_at)).filter
          fun x => decide (x.created_at < e) := by
  induction p with
  | nil => rfl
  | cons pr rest ih =>
    by_cases he : e ≤ pr.created_at
    · have hs : decide (s ≤ pr.created_at) = true := by
        simp [le_trans hse he]
      have hfe : decide (pr.created_at < e) = false := by
        simp [not_lt.mpr he]
      simp [scanPage, if_pos he, List.takeWhile_cons, hs, List.filter_cons, hfe, ih]
    · by_cases hlt : pr.created_at < s
      · have hs : decide (s ≤ pr.created_at) = false := by
          simp [not_le.mpr hlt]
        simp [scanPage, if_neg he, if_pos hlt, List.takeWhile_cons, hs]
      · have hs : decide (s ≤ pr.created_at) = true := by
          simp [not_lt.mp hlt]
        have hte : decide (pr.created_at < e) = true := by
          simp [lt_of_not_le he]
        simp [scanPage, if_neg he, if_neg hlt, List.takeWhile_cons, hs,
          List.filter_cons, hte, ih]

theorem scanPage_snd {s e : Int} (hse : s ≤ e) (p : List RawPR) :
    (scanPage s e p).2 = p.any fun x => decide (x.created_at < s) := by
  induction p with
  | nil => rfl
  | cons pr rest ih =>
    by_cases he : e ≤ pr.created_at
    · have hns : decide (pr.created_at < s) = false := by
        simp [not_lt.mpr (le_trans hse he)]
      simp [scanPage, if_pos he, List.any_cons, hns, ih]
    · by_cases hlt : pr.created_at < s
      · simp [scanPage, if_neg he, if_pos hlt, List.any_cons, hlt]
      · have hns : decide (pr.created_at < s) = false := by simp [hlt]
        simp [scanPage, if_neg he, if_neg hlt, List.any_cons, hns, ih]

theorem takeWhile_append_of_exists {s : Int} {p r : List RawPR}
    (h : ∃ x ∈ p, x.created_at < s) :
    (p ++ r).takeWhile (fun x => decide (s ≤ x.created_at))
      = p.takeWhile fun x => decide (s ≤ x.created_at) := by
  induction p with
  | nil => simp at h
  | cons pr rest ih =>
    by_cases hs : s ≤ pr.created_at
    · have hd : decide (s ≤ pr.created_at) = true := by simp [hs]
      have hrest : ∃ x ∈ rest, x.created_at < s := by
        rcases h with ⟨x, hx, hxs⟩
        rcases List.mem_cons.mp hx with rfl | hx'
        · exact absurd hxs (not_lt.mpr hs)
        · exact ⟨x, hx', hxs⟩
      simp [List.takeWhile_cons, hd, ih hrest]
    · have hd : decide (s ≤ pr.created_at) = false := by simp [hs]
      simp [List.takeWhile_cons, hd]

theorem dropWhile_lt_of_sorted {s : Int} {l : List RawPR}
    (hsort : l.Pairwise fun a b => b.created_at ≤ a.created_at) :
    ∀ x ∈ l.dropWhile (fun x => decide (s ≤ x.created_at)), x.created_at < s := by
  induction l with
  | nil => simp
  | cons a as ih =>
    rcases List.pairwise_cons.mp hsort with ⟨ha, has⟩
    by_cases hs : s ≤ a.created_at
    · have hd : decide (s ≤ a.created_at) = true := by simp [hs]
      simpa [List.dropWhile_cons, hd] using ih has
    · have hd : decide (s ≤ a.created_at) = false := by simp [hs]
      simp only [List.dropWhile_cons, hd, Bool.false_eq_true, if_neg,
        not_false_iff]
      intro x hx
      rcases List.mem_cons.mp hx with rfl | hx'
      · exact lt_of_not_le hs
      · exact lt_of_le_of_lt (ha x hx') (lt_of_not_le hs)

theorem filter_window_eq {s e : Int} (_hse : s ≤ e) {l : List RawPR}
    (hsort : l.Pairwise fun a b => b.created_at ≤ a.created_at) :
    l.filter (fun x => decide (s ≤ x.created_at) && decide (x.created_at < e))
      = (l.takeWhile fun x => decide (s ≤ x.created_at)).filter
          fun x => decide (x.created_at < e) := by
  conv_lhs => rw [← List.takeWhile_append_dropWhile
    (p := fun x => decide (s ≤ x.created_at)) (l := l)]
  rw [List.filter_append]
  have h2 : (l.dropWhile (fun x => decide (s ≤ x.created_at))).filter
      (fun x => decide (s ≤ x.created_at) && decide (x.created_at < e)) = [] := by
    rw [List.filter_eq_nil_iff]
    intro x hx
    have := dropWhile_lt_of_sorted hsort x hx
    simp [not_le.mpr this]
  rw [h2, List.append_nil]
  refine List.filter_congr ?_
  intro x hx
  have hP := List.mem_takeWhile_imp hx
  simp only [decide_eq_true_eq] at hP
  simp [hP]

end PaginationLemmas

theorem get_prs_pages_window (s e : Int) (pages : List (List RawPR))
    (hse : s ≤ e)
    (hne : ∀ p ∈ pages, p ≠ [])
    (hsort : pages.flatten.Pairwise fun a b => b.created_at ≤ a.created_at)
    (hex : ∃ x ∈ pages.flatten, x.created_at < s) :
    get_prs_pages_run s e (pages.map Response.page)
      = (pages.flatten.filter
            fun x => decide (s ≤ x.created_at) && decide (x.created_at < e),
          (pages.takeWhile fun p => p.all fun x => decide (s ≤ x.created_at)).length
            + 1) := by
  induction pages with
  | nil => simp at hex
  | cons p rest ih =>
    have hp : p ≠ [] := hne p (List.mem_cons_self _ _)
    obtain ⟨a, as, rfl⟩ : ∃ a as, p = a :: as := by
      cases p with
      | nil => exact absurd rfl hp
      | cons a as => exact ⟨a, as, rfl⟩
    rw [List.flatten_cons] at hsort hex
    by_cases hany : (a :: as).any (fun x => decide (x.created_at < s)) = true
    · have hterm : (scanPage s e (a :: as)).2 = true := by
        rw [scanPage_snd hse]
        exact hany
      have hweak : ∃ x ∈ a :: as, x.created_at < s := by
        rcases List.any_eq_true.mp hany with ⟨x, hx, hxs⟩
        exact ⟨x, hx, of_decide_eq_true hxs⟩
      have hallfalse : ((a :: as).all fun x => decide (s ≤ x.created_at)) = false := by
        rcases hweak with ⟨x, hx, hxs⟩
        refine List.all_eq_false.mpr ⟨x, hx, ?_⟩
        simp [not_le.mpr hxs]
      show (if (scanPage s e (a :: as)).2 then ((scanPage s e (a :: as)).1, 1)
          else ((scanPage s e (a :: as)).1
              ++ (get_prs_pages_run s e (rest.map Response.page)).1,
            (get_prs_pages_run s e (rest.map Response.page)).2 + 1)) = _
      rw [if_pos hterm, scanPage_fst hse, List.flatten_cons,
        filter_window_eq hse hsort, takeWhile_append_of_exists hweak]
      simp [List.takeWhile_cons, hallfalse]
    · have hall : ∀ x ∈ a :: as, s ≤ x.created_at := by
        intro x hx
        by_contra hxs
        exact hany (List.any_eq_true.mpr ⟨x, hx, by simp [lt_of_not_le hxs]⟩)
      have hscan := scanPage_no_old (e := e) hall
      have hrest_sort : rest.flatten.Pairwise
          fun a b => b.created_at ≤ a.created_at :=
        ((List.pairwise_append.mp hsort).2).1
      have hrest_ex : ∃ x ∈ rest.flatten, x.created_at < s := by
        rcases hex with ⟨x, hx, hxs⟩
        rcases List.mem_append.mp hx with hx' | hx'
        · exact absurd hxs (not_lt.mpr (hall x hx'))
        · exact ⟨x, hx', hxs⟩
      have ihr := ih (fun q hq => hne q (List.mem_cons_of_mem _ hq)) hrest_sort
        hrest_ex
      have hfirst : (a :: as).filter (fun x => decide (x.created_at < e))
          = (a :: as).filter
              (fun x => decide (s ≤ x.created_at) && decide (x.created_at < e)) := by
        refine (List.filter_congr ?_).symm
        intro x hx
        simp [hall x hx]
      have halltrue : ((a :: as).all fun x => decide (s ≤ x.created_at)) = true :=
        List.all_eq_true.mpr fun x hx => by simp [hall x hx]
      show (if (scanPage s e (a :: as)).2 then ((scanPage s e (a :: as)).1, 1)
          else ((scanPage s e (a :: as)).1
              ++ (get_prs_pages_run s e (rest.map Response.page)).1,
            (get_prs_pages_run s e (rest.map Response.page)).2 + 1)) = _
      rw [hscan]
      simp only [Bool.false_eq_true, if_neg, not_false_iff]
      rw [ihr, List.flatten_cons]
      simp only [Prod.mk.injEq]
      constructor
      · rw [hfirst, List.filter_append]
      · simp [List.takeWhile_cons, halltrue]

theorem get_prs_between_run_ok (s e : Int) (a : RawPR) (as : List RawPR)
    (rs : List (Response RawPR)) :
    get_prs_between_run s e (.page (a :: as) :: rs)
      = .ok (get_prs_pages_run s e (.page (a :: as) :: rs)) := by
  show (if (scanPage s e (a :: as)).2
      then FetchResult.ok ((scanPage s e (a :: as)).1, 1)
      else .ok ((scanPage s e (a :: as)).1 ++ (get_prs_pages_run s e rs).1,
        (get_prs_pages_run s e rs).2 + 1))
    = .ok (if (scanPage s e (a :: as)).2 then ((scanPage s e (a :: as)).1, 1)
      else ((scanPage s e (a :: as)).1 ++ (get_prs_pages_run s e rs).1,
        (get_prs_pages_run s e rs).2 + 1))
  by_cases h : (scanPage s e (a :: as)).2 = true <;> simp [h]

/-- Claim C1: over descending-by-creation-time pages, `get_prs_between` returns
exactly the items with `start <= created_at < end`, and the number of page requests
is exactly the index of the page holding the first item older than `start` — the
fetch terminates at that item and never requests a later page. -/
theorem get_prs_between_window (s e : Int) (pages : List (List RawPR))
    (hse : s ≤ e)
    (hne : ∀ p ∈ pages, p ≠ [])
    (hsort : pages.flatten.Pairwise fun a b => b.created_at ≤ a.created_at)
    (hex : ∃ x ∈ pages.flatten, x.created_at < s) :
    get_prs_between_run s e (pages.map Response.page)
      = .ok (pages.flatten.filter
            fun x => decide (s ≤ x.created_at) && decide (x.created_at < e),
          (pages.takeWhile fun p => p.all fun x => decide (s ≤ x.created_at)).length
            + 1) := by
  cases pages with
  | nil => simp at hex
  | cons p rest =>
    have hp : p ≠ [] := hne p (List.mem_cons_self _ _)
    obtain ⟨a, as, rfl⟩ : ∃ a as, p = a :: as := by
      cases p with
      | nil => exact absurd rfl hp
      | cons a as => exact ⟨a, as, rfl⟩
    rw [List.map_cons, get_prs_between_run_ok]
    exact congrArg FetchResult.ok
      (get_prs_pages_window s e ((a :: as) :: rest) hse hne hsort hex)

/-- Witness for C1: a window `[10, 20)` over descending pages
`[[25, 15], [5], [3]]`; the fetch returns exactly the item created at 15 and issues
exactly 2 page requests, never touching the third page. -/
theorem get_prs_between_window_witness :
    get_prs_between_run 10 20
        (([[⟨1, 25, none, none, "u"⟩, ⟨2, 15, none, none, "u"⟩],
            [⟨3, 5, none, none, "u"⟩],
            [⟨4, 3, none, none, "u"⟩]] : List (List RawPR)).map Response.page)
      = .ok ([⟨2, 15, none, none, "u"⟩], 2) := by
  have h := get_prs_between_window 10 20
    ([[⟨1, 25, none, none, "u"⟩, ⟨2, 15, none, none, "u"⟩],
      [⟨3, 5, none, none, "u"⟩],
      [⟨4, 3, none, none, "u"⟩]] : List (List RawPR))
    (by decide) (by decide) (by decide)
    ⟨⟨3, 5, none, none, "u"⟩, by decide, by decide⟩
  rw [h]
  decide

/-- Claim C8 (code bug): a non-success response on the very first page is not
recovered: the loop breaks before the progress bar is created, so the unconditional
`pbar.close()` (lines 73 and 137) raises an uncaught `AttributeError` and the
process dies with nothing returned, for both fetchers — contradicting the claim
that partial results are returned even for a first-page failure and that the
failure is never process-fatal.  A failure on any later page does end the fetch
gracefully with the rows accumulated before it. -/
theorem fetch_first_page_failure_crash :
    get_commits [Response.failure] = FetchResult.attributeError ∧
    get_prs_between_run 0 10 [Response.failure] = FetchResult.attributeError ∧
    get_prs_between 0 10 [Response.failure] = FetchResult.attributeError ∧
    get_commits [Response.page [⟨"a", 1, "u"⟩], Response.failure]
      = FetchResult.ok [⟨"a", 1, "u"⟩] ∧
    get_prs_between_run 0 10
        [Response.page [⟨5, 3, none, none, "u"⟩], Response.failure]
      = FetchResult.ok ([⟨5, 3, none, none, "u"⟩], 2) ∧
    get_prs_between 0 10 [Response.page [⟨5, 3, none, none, "u"⟩], Response.failure]
      = FetchResult.ok [⟨5, 3, none, none, "u"⟩] := by
  refine ⟨rfl, rfl, rfl, rfl, ?_, ?_⟩ <;> decide
